import Mathlib

/-!
# Verification of the Singing_Voice_Transcription computational core

Shallow embedding of the repository's two algorithmic modules:

* `vocal_contour/callbacks.py` — the training-callback state machine
  (`Callback._get_monitor_value`, `EarlyStopping`, `ModelCheckpoint`).
  Metric scores (numpy float64 scalars) are modelled as exact rationals `ℚ`;
  the `np.Inf` / `-np.Inf` sentinel used for `best` before any score is seen
  is modelled by `Option ℚ` with `none` as the sentinel (for every finite
  score `s`, `np.less(s, np.Inf)` and `np.greater(s, -np.Inf)` are both
  true, which is exactly how the `none` case of `monitorCompare` behaves).
  Side effects (logger warnings, directory creation, file writes) are
  modelled as an explicit event list; the Python `UnboundLocalError` that
  `_get_monitor_value` raises when the selected history stream is empty is
  modelled as the `Except` error `PyError.unboundLocal`.

* `models/t2t.py` — the block-indexing engine and local 2-D attention
  helpers (`pad_to_multiple_2d`, `gather_indices_2d`, `gather_blocks_2d`,
  `embedding_to_padding`, `scatter_blocks_2d`).  Tensors are modelled by
  `TensorF`: a row-major shape together with a total function from
  multi-indices to rational values (float arithmetic in the source is
  exact on everything these claims touch: the identity-kernel convolution
  of `gather_indices_2d` only ever adds `index * {0,1}` products, and the
  padding mask only compares a sum of absolute values with zero).
-/

/-! ## Callback state machine (vocal_contour/callbacks.py) -/

deriving instance DecidableEq for Except

/-- A per-epoch metric record: Python dict mapping metric name to scalar. -/
structure Record where
  entries : List (String × ℚ)
deriving DecidableEq

/-- `dict.get(key)`: first matching key, `none` when absent. -/
def Record.get (r : Record) (key : String) : Option ℚ :=
  (r.entries.find? (fun p => p.1 == key)).map (·.2)

/-- The metric history consumed by callbacks:
`{"train": [...], "validate": [...]}`, one record per completed epoch. -/
structure History where
  train : List Record
  validate : List Record
deriving DecidableEq

/-- Python errors that the callback code can raise. -/
inductive PyError where
  | unboundLocal
deriving DecidableEq

/-- Observable side effects of callback methods: a logger warning, the
idempotent directory-creation call, and the two persistence writes. -/
inductive CbEvent where
  | warn
  | ensurePath
  | writeArch
  | writeWeights
deriving DecidableEq

/-- `"val".startswith`-style check, structurally over the character lists
(so that concrete instances reduce inside the kernel). -/
def strStartsWith (pre m : String) : Bool :=
  pre.data.isPrefixOf m.data

/-- Last segment of `m.split(sep)`: Python's `m.split(sep)[-1]` for a
one-character separator.  A separator occurrence resets the accumulator,
so the fold returns the text after the last separator (empty when the
string ends with the separator), exactly as in Python. -/
def lastToken (sep : Char) (m : String) : String :=
  m.data.foldl (fun acc c => if c = sep then "" else acc.push c) ""

/-- Membership test for one list as a contiguous infix of another,
structurally (Python's `pat in s` on strings). -/
def hasSubList (pat : List Char) : List Char → Bool
  | [] => pat.isPrefixOf ([] : List Char)
  | c :: cs => pat.isPrefixOf (c :: cs) || hasSubList pat cs

/-- Python `"acc" in monitor` (from `Callback.__init__`). -/
def containsAcc (monitor : String) : Bool :=
  hasSubList "acc".data monitor.data

/-- `Callback.__init__`: the comparison operator is `np.greater` when the
monitor name contains `"acc"`, else `np.less`.  `best = none` models the
`±np.Inf` sentinel, against which every finite score compares favourably. -/
def monitorCompare (monitor : String) (score : ℚ) (best : Option ℚ) : Bool :=
  match best with
  | none => true
  | some b => if containsAcc monitor then decide (b < score) else decide (score < b)

/-- `history or {"train": [], "validate": []}` default. -/
def emptyHistory : History := ⟨[], []⟩

/-- Stream selection in `Callback._get_monitor_value`: the `"validate"`
stream when the monitor name starts with `"val"`, else the `"train"` one. -/
def selectedStream (monitor : String) (history : Option History) : List Record :=
  let h := history.getD emptyHistory
  if strStartsWith "val" monitor then h.validate else h.train

/-- Metric-name normalisation in `Callback._get_monitor_value`:
`monitor.split("_")[-1]`, then `"acc"` replaced by `"accuracy"`. -/
def normalizeMetric (monitor : String) : String :=
  let metric := lastToken '_' monitor
  if metric == "acc" then "accuracy" else metric

/-- `Callback._get_monitor_value`.  When the selected stream is empty the
local `current` is never assigned and `current.get(metric)` raises
`UnboundLocalError`; otherwise the result is `dict.get` on the latest
record (`none` triggers the warning log in the caller's model). -/
def getMonitorValue (monitor : String) (history : Option History) :
    Except PyError (Option ℚ) :=
  match (selectedStream monitor history).getLast? with
  | none => .error .unboundLocal
  | some current => .ok (current.get (normalizeMetric monitor))

/-- State of an `EarlyStopping` callback together with the owning model's
`stop_training` flag. -/
structure ESState where
  patience : ℕ
  monitor : String
  wait : ℕ
  best : Option ℚ
  stoppedEpoch : ℕ
  stopTraining : Bool
deriving DecidableEq

/-- `EarlyStopping.__init__` followed by `on_train_begin` (and `_set_model`
on a model whose `stop_training` flag is clear):
`wait = 0`, `best = ±np.Inf` sentinel, `stopped_epoch = 0`. -/
def esInit (patience : ℕ) (monitor : String) : ESState :=
  ⟨patience, monitor, 0, none, 0, false⟩

/-- `EarlyStopping.on_epoch_end`: read the monitored metric; on a missing
metric warn and return unchanged; otherwise update `best`/`wait` and set
the stop signal when `wait >= patience`. -/
def EarlyStopping.onEpochEnd (s : ESState) (epoch : ℕ) (history : Option History) :
    Except PyError (ESState × List CbEvent) :=
  match getMonitorValue s.monitor history with
  | .error e => .error e
  | .ok none => .ok (s, [CbEvent.warn])
  | .ok (some score) =>
      let s1 := if monitorCompare s.monitor score s.best
                then { s with best := some score, wait := 0 }
                else { s with wait := s.wait + 1 }
      let s2 := if s1.patience ≤ s1.wait
                then { s1 with stopTraining := true, stoppedEpoch := epoch }
                else s1
      .ok (s2, [])

/-- State of a `ModelCheckpoint` callback. -/
structure MCState where
  monitor : String
  saveBestOnly : Bool
  saveWeightsOnly : Bool
  best : Option ℚ
  pathChecked : Bool
deriving DecidableEq

/-- `ModelCheckpoint.__init__` followed by `on_train_begin`. -/
def mcInit (monitor : String) (saveBestOnly saveWeightsOnly : Bool) : MCState :=
  ⟨monitor, saveBestOnly, saveWeightsOnly, none, false⟩

/-- `ModelCheckpoint._save_model` (with `_ensure_path_exists`): directory
creation only on the first call, `arch.yaml` only when not
`save_weights_only`, `weights.h5` always, in source order. -/
def MCState.saveModel (s : MCState) : MCState × List CbEvent :=
  let ev1 := if s.pathChecked then ([] : List CbEvent) else [CbEvent.ensurePath]
  let ev2 := if s.saveWeightsOnly then ([] : List CbEvent) else [CbEvent.writeArch]
  ({ s with pathChecked := true }, ev1 ++ ev2 ++ [CbEvent.writeWeights])

/-- `ModelCheckpoint.on_epoch_end`: with `save_best_only` consult the
monitor (warn-and-skip when missing, save only on improvement); otherwise
save unconditionally. -/
def ModelCheckpoint.onEpochEnd (s : MCState) (_epoch : ℕ) (history : Option History) :
    Except PyError (MCState × List CbEvent) :=
  if s.saveBestOnly then
    match getMonitorValue s.monitor history with
    | .error e => .error e
    | .ok none => .ok (s, [CbEvent.warn])
    | .ok (some score) =>
        if monitorCompare s.monitor score s.best then
          .ok (MCState.saveModel { s with best := some score })
        else
          .ok (s, [])
  else
    .ok (MCState.saveModel s)

/-- Cumulative history for a training run monitored on `"loss"` whose
score at epoch `i` is `f i`: after epoch `n` the `"train"` stream holds
the records of epochs `0..n` (append-only, as the spec's data model
requires); the `"validate"` stream is unused by a `"loss"` monitor. -/
def lossHistory (f : ℕ → ℚ) (n : ℕ) : History :=
  ⟨(List.range (n + 1)).map (fun i => ⟨[("loss", f i)]⟩), []⟩

/-- Drive `EarlyStopping.on_epoch_end` for epochs `0, 1, ..., n-1` from
state `s`, feeding at epoch `i` the cumulative history of scores
`f 0, ..., f i` (events are observational only and dropped here). -/
def esRun (s : ESState) (f : ℕ → ℚ) : ℕ → Except PyError ESState
  | 0 => .ok s
  | n + 1 =>
      match esRun s f n with
      | .error e => .error e
      | .ok s' => (EarlyStopping.onEpochEnd s' n (some (lossHistory f n))).map (·.1)

/-! ## Tensor model (models/t2t.py)

A tensor is a row-major shape together with a total valuation of
multi-indices (`TensorF`).  The TensorFlow primitives used by the
block-indexing engine — `tf.reshape`, `tf.transpose`, `tf.pad`,
`tf.gather`, `tf.scatter_nd`, strided VALID `tf.nn.conv2d` — are given
their index-level semantics below, and the t2t functions are then literal
compositions of these primitives, following the source line by line.
Integer index tensors (`gather_indices_2d` results) are represented as
`List (List ℕ)`; the `float32` round-trip the source performs around its
convolution is modelled exactly (the convolution of a one-hot kernel with
a grid of linear indices computes sums of `index * {0,1}` products). -/

/-- Row-major linearisation of a multi-index against a shape. -/
def encodeIdx : List ℕ → List ℕ → ℕ
  | _ :: ss, i :: is => i * ss.prod + encodeIdx ss is
  | _, _ => 0

/-- Row-major un-linearisation of a flat offset against a shape. -/
def decodeIdx : List ℕ → ℕ → List ℕ
  | [], _ => []
  | _ :: ss, n => n / ss.prod :: decodeIdx ss (n % ss.prod)

/-- A tensor: row-major shape plus a total valuation of multi-indices
(out-of-range indices read arbitrary values and are never relied upon). -/
structure TensorF where
  shape : List ℕ
  data : List ℕ → ℚ

/-- `tf.reshape`: same row-major data stream, new shape. -/
def tReshape (t : TensorF) (newShape : List ℕ) : TensorF :=
  ⟨newShape, fun idx => t.data (decodeIdx t.shape (encodeIdx newShape idx))⟩

/-- `tf.transpose(x, perm)`: output axis `k` reads input axis `perm[k]`,
so input axis `k` reads the output coordinate at `perm.indexOf k`. -/
def tTranspose (t : TensorF) (perm : List ℕ) : TensorF :=
  ⟨perm.map (fun p => t.shape.getD p 0),
   fun idx => t.data ((List.range t.shape.length).map (fun k => idx.getD (perm.indexOf k) 0))⟩

/-- `reshape_range(tensor, i, j, shape)`: replace dimensions `[i, j)` by
`shape` (t2t.py line 28). -/
def reshape_range (t : TensorF) (i j : ℕ) (shape : List ℕ) : TensorF :=
  tReshape t (t.shape.take i ++ shape ++ t.shape.drop j)

/-- `tf.pad` with per-dimension `(before, after)` zero padding. -/
def tfPad (t : TensorF) (paddings : List (ℕ × ℕ)) : TensorF :=
  ⟨(t.shape.zip paddings).map (fun sp => sp.2.1 + sp.1 + sp.2.2),
   fun idx =>
     if (idx.zip (t.shape.zip paddings)).all
         (fun q => decide (q.2.2.1 ≤ q.1) && decide (q.1 < q.2.2.1 + q.2.1))
     then t.data ((idx.zip paddings).map (fun q => q.1 - q.2.1))
     else 0⟩

/-- Python's nonnegative `-n % m` (the padding amounts in
`pad_to_multiple_2d`): the least `r < m` with `m ∣ n + r`. -/
def pyNegMod (n m : ℕ) : ℕ :=
  ((-(n : ℤ)) % (m : ℤ)).toNat

/-- `pad_to_multiple_2d(x, block_shape)` (t2t.py line 70): zero-pad the
spatial dims (axes 1,2 of a rank-4 tensor, axes 2,3 of a rank-5 tensor)
at the end up to a multiple of the block shape.  Any other rank leaves
the local `paddings` unassigned in the source, raising
`UnboundLocalError` at `tf.pad`. -/
def pad_to_multiple_2d (x : TensorF) (block_shape : ℕ × ℕ) : Except PyError TensorF :=
  if x.shape.length = 4 then
    let hp := pyNegMod (x.shape.getD 1 0) block_shape.1
    let wp := pyNegMod (x.shape.getD 2 0) block_shape.2
    .ok (tfPad x [(0, 0), (0, hp), (0, wp), (0, 0)])
  else if x.shape.length = 5 then
    let hp := pyNegMod (x.shape.getD 2 0) block_shape.1
    let wp := pyNegMod (x.shape.getD 3 0) block_shape.2
    .ok (tfPad x [(0, 0), (0, 0), (0, hp), (0, wp), (0, 0)])
  else .error .unboundLocal

/-- Output extent of a strided VALID convolution along one dimension:
`floor((n - k)/s) + 1` when the kernel fits, 0 otherwise (TensorFlow
rejects a negative VALID output dimension). -/
def convOutDim (n k s : ℕ) : ℕ :=
  if k ≤ n then (n - k) / s + 1 else 0

/-- The identity kernel of `gather_indices_2d`: `tf.eye(bh*bw)` reshaped
to `[bh, bw, 1, bh*bw]`, i.e. `kernel[bi][bj][0][ch] = eye[bi*bw+bj][ch]`. -/
def eyeKernel (bw : ℕ) (bi bj ch : ℕ) : ℕ :=
  if bi * bw + bj = ch then 1 else 0

/-- `gather_indices_2d(x, block_shape, block_stride)` (t2t.py line 91):
convolve the one-hot identity kernel over the `[1, H, W, 1]` grid of
linear indices `0..H*W-1` with VALID padding and the given strides, then
reshape to `[num_blocks, bh*bw]`.  Output position `(i, j)`, channel
`ch`, holds `Σ_{bi,bj} grid[i*sh+bi][j*sw+bj] * kernel[bi][bj][0][ch]`
with `grid[r][c] = r*W + c`.  Rows are ordered `i`-major, matching the
row-major reshape of the `[1, outH, outW, bh*bw]` convolution output. -/
def gather_indices_2d (x : TensorF) (block_shape block_stride : ℕ × ℕ) :
    List (List ℕ) :=
  let H := x.shape.getD 2 0
  let W := x.shape.getD 3 0
  let bh := block_shape.1
  let bw := block_shape.2
  let sh := block_stride.1
  let sw := block_stride.2
  (List.range (convOutDim H bh sh)).flatMap (fun i =>
    (List.range (convOutDim W bw sw)).map (fun j =>
      (List.range (bh * bw)).map (fun ch =>
        ∑ bi ∈ Finset.range bh, ∑ bj ∈ Finset.range bw,
          ((i * sh + bi) * W + (j * sw + bj)) * eyeKernel bw bi bj ch)))

/-- `tf.gather(x, indices)` with a rank-2 integer index tensor: result
`[n, k, rest...]` reads `x[indices[n][k], rest...]`. -/
def tGather (t : TensorF) (indices : List (List ℕ)) : TensorF :=
  ⟨[indices.length, (indices.headD []).length] ++ t.shape.tail,
   fun idx =>
     t.data (((indices.getD (idx.getD 0 0) []).getD (idx.getD 1 0) 0) :: idx.drop 2)⟩

/-- `gather_blocks_2d(x, indices)` (t2t.py line 114): flatten the two
spatial dims, move length first, gather block rows, move batch/heads
back in front. -/
def gather_blocks_2d (x : TensorF) (indices : List (List ℕ)) : TensorF :=
  let x1 := reshape_range x 2 4 [((x.shape.drop 2).take 2).prod]
  let x_t := tTranspose x1 [2, 0, 1, 3]
  let x_new := tGather x_t indices
  tTranspose x_new [2, 3, 0, 1, 4]

/-- `tf.scatter_nd(indices[:,None], updates, shape)` with 1-D scatter
indices: output row `p` is the sum of all update rows whose index is `p`
(TensorFlow sums duplicate indices; absent indices read 0). -/
def tScatterNd (indices : List ℕ) (updates : TensorF) (shape : List ℕ) : TensorF :=
  ⟨shape, fun idx =>
    ∑ m ∈ Finset.range indices.length,
      if indices.getD m 0 = idx.getD 0 0 then updates.data (m :: idx.tail) else 0⟩

/-- `scatter_blocks_2d(x, indices, shape)` (t2t.py line 146): collapse
the block dims of `x : [B, hd, nb, area, d]` (the source's `-1` resolves
to `nb*area`), move length first, scatter rows back to their flattened
spatial positions, move batch/heads in front and reshape to `shape`. -/
def scatter_blocks_2d (x : TensorF) (indices : List (List ℕ)) (shape : List ℕ) : TensorF :=
  let x1 := tReshape x [x.shape.getD 0 0, x.shape.getD 1 0,
      x.shape.getD 2 0 * x.shape.getD 3 0, x.shape.getD 4 0]
  let x_t := tTranspose x1 [2, 0, 1, 3]
  let scattered := tScatterNd indices.flatten x_t x_t.shape
  let scattered2 := tTranspose scattered [1, 2, 0, 3]
  tReshape scattered2 shape

/-- `embedding_to_padding(emb)` (t2t.py line 139): 1.0 at positions whose
channel vector sums to zero in absolute value, 0.0 elsewhere. -/
def embedding_to_padding (emb : TensorF) : TensorF :=
  ⟨emb.shape.dropLast,
   fun idx =>
     if (∑ c ∈ Finset.range (emb.shape.getLastD 0), |emb.data (idx ++ [c])|) = 0
     then 1 else 0⟩

/-- `tf.expand_dims(t, axis=-2)`: insert a broadcast axis of extent 1
before the last axis. -/
def tExpandDimsPenult (t : TensorF) : TensorF :=
  ⟨t.shape.dropLast ++ [1] ++ [t.shape.getLastD 0],
   fun idx => t.data (idx.eraseIdx (idx.length - 2))⟩

/-- Scalar multiplication of a tensor (the `* -1e9` in
`local_attention_2d`). -/
def tScale (t : TensorF) (c : ℚ) : TensorF :=
  ⟨t.shape, fun idx => t.data idx * c⟩

/-- The attention bias of `local_attention_2d` (t2t.py line 240):
`expand_dims(to_float(embedding_to_padding(k_new)) * -1e9, axis=-2)`
(`to_float` is the identity on our exact values). -/
def localAttentionBias (k_new : TensorF) : TensorF :=
  tExpandDimsPenult (tScale (embedding_to_padding k_new) (-(10 ^ 9 : ℚ)))

/-- `tf.matmul(q, k, transpose_b=True)`: batched over all leading axes,
`out[..., a, b] = Σ_c q[..., a, c] * k[..., b, c]`. -/
def tMatMulT (q k : TensorF) : TensorF :=
  ⟨q.shape.dropLast ++ [k.shape.getD (k.shape.length - 2) 0],
   fun idx =>
     let r := idx.length
     let lead := idx.take (r - 2)
     let a := idx.getD (r - 2) 0
     let b := idx.getD (r - 1) 0
     ∑ c ∈ Finset.range (q.shape.getLastD 0),
       q.data (lead ++ [a, c]) * k.data (lead ++ [b, c])⟩

/-- Broadcasting `logits += bias` where the bias carries a length-1
penultimate (query) axis, as in `dot_product_attention`. -/
def tAddBiasPenultBroadcast (logits bias : TensorF) : TensorF :=
  ⟨logits.shape, fun idx => logits.data idx + bias.data (idx.set (idx.length - 2) 0)⟩

/-- The pre-softmax stage of `dot_product_attention` (t2t.py lines
200–203): `logits = tf.matmul(q, k, transpose_b=True)` followed by
`logits += bias`.  The softmax/dropout stages that follow are not needed
by any claim and are not representable over exact rationals. -/
def dot_product_attention_logits (q k bias : TensorF) : TensorF :=
  tAddBiasPenultBroadcast (tMatMulT q k) bias

/-- Concrete score sequence used for callback counterexamples and
witnesses: one improvement at epoch 0 under a `"loss"` monitor, then
strictly worsening values (kept free of `ℚ` arithmetic so that concrete
runs reduce inside the kernel). -/
def cexScores : ℕ → ℚ := fun i => if i = 0 then 1 else if i = 1 then 2 else 3

/-- Concrete rank-5 feature map (`1×1×2×2×1`) for tensor witnesses. -/
def c6X : TensorF :=
  ⟨[1, 1, 2, 2, 1], fun idx => if idx.getD 2 0 = 0 then 5 else 7⟩

/-- Its padding under block shape `(2, 2)` (the spatial dims are already
multiples, so the padding amounts are zero). -/
def c6P : TensorF :=
  tfPad c6X [(0, 0), (0, 0), (0, pyNegMod 2 2), (0, pyNegMod 2 2), (0, 0)]

/-- Concrete rank-4 tensor (`1×2×3×1`) for the padding witness. -/
def c8X : TensorF := ⟨[1, 2, 3, 1], fun _ => 3⟩

/-- Concrete rank-5 tensor over a `16×16` grid for the block-count
counterexample and witnesses. -/
def c7X : TensorF := ⟨[1, 1, 16, 16, 1], fun _ => 0⟩

/-- Concrete gathered query blocks (`1×1×1×1×1`) for the attention-bias
witness. -/
def c9Q : TensorF := ⟨[1, 1, 1, 1, 1], fun _ => 3⟩

/-- Concrete gathered key blocks (`1×1×1×2×1`): key position 0 has an
all-zero channel vector (padding), key position 1 does not. -/
def c9K : TensorF :=
  ⟨[1, 1, 1, 2, 1], fun idx => if idx.getD 3 0 = 0 then 0 else 2⟩

/-! ## Theorems -/

theorem strStartsWith_val_loss : strStartsWith "val" "loss" = false := by decide

theorem containsAcc_loss : containsAcc "loss" = false := by decide

theorem normalizeMetric_loss : normalizeMetric "loss" = "loss" := by decide

/-- Reading the `"loss"` monitor from the cumulative history after epoch
`n` yields the score of epoch `n`. -/
theorem getMonitorValue_lossHistory (f : ℕ → ℚ) (n : ℕ) :
    getMonitorValue "loss" (some (lossHistory f n)) = .ok (some (f n)) := by
  have hsel : selectedStream "loss" (some (lossHistory f n)) = (lossHistory f n).train := by
    simp [selectedStream, strStartsWith_val_loss]
  have hlast : (lossHistory f n).train.getLast? = some ⟨[("loss", f n)]⟩ := by
    simp [lossHistory, List.range_succ]
  simp [getMonitorValue, hsel, hlast, normalizeMetric_loss, Record.get, List.find?]

/-- A `"loss"` monitor compares by `np.less`. -/
theorem monitorCompare_loss (score : ℚ) (b : ℚ) :
    monitorCompare "loss" score (some b) = decide (score < b) := by
  simp [monitorCompare, containsAcc_loss]


/-- Improvement phase: on a `"loss"` monitor whose score strictly improves
at every epoch up to `e` (epoch 0 improves against the `np.Inf` sentinel),
the state after epochs `0..n-1` (for `1 ≤ n ≤ e+1`) has `wait = 0`,
`best = f (n-1)` and no stop signal, provided `patience ≥ 1`. -/
theorem esRun_improving_phase (p e : ℕ) (f : ℕ → ℚ) (hp : 1 ≤ p)
    (himp : ∀ i, i < e → f (i + 1) < f i) :
    ∀ n, 1 ≤ n → n ≤ e + 1 →
      esRun (esInit p "loss") f n = .ok ⟨p, "loss", 0, some (f (n - 1)), 0, false⟩ := by
  intro n
  induction n with
  | zero => intro h1 _; omega
  | succ k ih =>
      intro _ h2
      rcases Nat.eq_zero_or_pos k with hk0 | hkpos
      · subst hk0
        have hcmp : monitorCompare "loss" (f 0) none = true := by
          simp [monitorCompare]
        simp only [esRun, esInit]
        simp [EarlyStopping.onEpochEnd, getMonitorValue_lossHistory, hcmp, esInit, Except.map,
          Nat.not_le.mpr (Nat.lt_of_lt_of_le Nat.zero_lt_one hp)]
      · have hk : k ≤ e + 1 := Nat.le_of_succ_le h2
        have hke : k - 1 < e := by omega
        have hstep := ih hkpos hk
        have hlt : f k < f (k - 1) := by
          have := himp (k - 1) hke
          rwa [Nat.sub_add_cancel hkpos] at this
        simp only [esRun, hstep]
        have hcmp : monitorCompare "loss" (f k) (some (f (k - 1))) = true := by
          rw [monitorCompare_loss]; exact decide_eq_true hlt
        simp [EarlyStopping.onEpochEnd, getMonitorValue_lossHistory, hcmp, Except.map,
          Nat.not_le.mpr (Nat.lt_of_lt_of_le Nat.zero_lt_one hp)]

/-- Worsening phase: after the improvement at epoch `e`, each strictly
worse epoch increments `wait`; as long as `wait` stays below `patience`
no stop signal is raised. -/
theorem esRun_worsening_phase (p e : ℕ) (f : ℕ → ℚ) (hp : 1 ≤ p)
    (himp : ∀ i, i < e → f (i + 1) < f i)
    (hworse : ∀ i, e < i → i ≤ e + p + 1 → f e < f i) :
    ∀ k, k ≤ p - 1 →
      esRun (esInit p "loss") f (e + 1 + k) = .ok ⟨p, "loss", k, some (f e), 0, false⟩ := by
  intro k
  induction k with
  | zero =>
      intro _
      have := esRun_improving_phase p e f hp himp (e + 1) (Nat.le_add_left 1 e) le_rfl
      simpa using this
  | succ j ih =>
      intro hj
      have hstep := ih (Nat.le_of_succ_le hj)
      have hepoch : e < e + 1 + j := by omega
      have hepoch2 : e + 1 + j ≤ e + p + 1 := by omega
      have hgt : f e < f (e + 1 + j) := hworse _ hepoch hepoch2
      have hcmp : monitorCompare "loss" (f (e + 1 + j)) (some (f e)) = false := by
        rw [monitorCompare_loss]
        exact decide_eq_false (not_lt.mpr (le_of_lt hgt))
      have harr : e + 1 + (j + 1) = (e + 1 + j) + 1 := by omega
      rw [harr]
      simp only [esRun, hstep]
      have hnofire : ¬ (p ≤ j + 1) := by omega
      simp [EarlyStopping.onEpochEnd, getMonitorValue_lossHistory, hcmp, hnofire, Except.map]

/-- C1 counterexample.  Patience 1, monitor `"loss"`, scores
`1, 2, 3, ...` (`cexScores`): the metric improves at epoch 0 (any finite
score improves on the `np.Inf` sentinel) and then strictly worsens at
epochs 1 and 2 — `patience + 1 = 2` consecutive worsening epochs.  The
claim predicts the stop signal fires exactly at epoch
`improvement_epoch + patience + 1 = 2` and not earlier, but after
processing epochs 0 and 1 the model's `stop_training` flag is already set
with `stopped_epoch = 1`. -/
theorem C1_counterexample :
    esRun (esInit 1 "loss") cexScores 2 =
      .ok ⟨1, "loss", 1, some 1, 1, true⟩ ∧
    cexScores 0 < cexScores 1 ∧ cexScores 0 < cexScores 2 := by decide

/-- C1 (amended).  For an `EarlyStopping` callback with `patience = p ≥ 1`
on a `"loss"` monitor, given a score history that strictly improves at
every epoch through `improvement_epoch = e` and then strictly worsens for
`p + 1` consecutive epochs, the `on_epoch_end` sequence leaves
`stop_training` clear after every prefix of epochs `0..e+p-1` and first
sets it when processing epoch `e + p` (not `e + p + 1` as originally
claimed), recording `stopped_epoch = e + p`. -/
theorem C1_earlyStopping_first_stop (p e : ℕ) (f : ℕ → ℚ) (hp : 1 ≤ p)
    (himp : ∀ i, i < e → f (i + 1) < f i)
    (hworse : ∀ i, e < i → i ≤ e + p + 1 → f e < f i) :
    (∀ n, n ≤ e + p → ∃ s, esRun (esInit p "loss") f n = .ok s ∧ s.stopTraining = false) ∧
    esRun (esInit p "loss") f (e + p + 1) =
      .ok ⟨p, "loss", p, some (f e), e + p, true⟩ := by
  constructor
  · intro n hn
    rcases Nat.eq_zero_or_pos n with hn0 | hnpos
    · exact ⟨esInit p "loss", by simp [esRun, hn0], rfl⟩
    · rcases le_or_lt n (e + 1) with hne | hne
      · exact ⟨_, esRun_improving_phase p e f hp himp n hnpos hne, rfl⟩
      · have hkle : n - e - 1 ≤ p - 1 := by omega
        have hres := esRun_worsening_phase p e f hp himp hworse (n - e - 1) hkle
        have hk : e + 1 + (n - e - 1) = n := by omega
        rw [hk] at hres
        exact ⟨_, hres, rfl⟩
  · have hstate := esRun_worsening_phase p e f hp himp hworse (p - 1) le_rfl
    have harr : e + 1 + (p - 1) = e + p := by omega
    rw [harr] at hstate
    have harr2 : e + p + 1 = (e + p) + 1 := rfl
    rw [harr2]
    simp only [esRun, hstate]
    have hgt : f e < f (e + p) := hworse _ (by omega) (by omega)
    have hcmp : monitorCompare "loss" (f (e + p)) (some (f e)) = false := by
      rw [monitorCompare_loss]
      exact decide_eq_false (not_lt.mpr (le_of_lt hgt))
    have hfire : p ≤ (p - 1) + 1 := by omega
    have hwait : (p - 1) + 1 = p := by omega
    simp [EarlyStopping.onEpochEnd, getMonitorValue_lossHistory, hcmp, hfire, hwait, Except.map]

/-- Witness for C1: `p = 1`, `e = 0`, scores `cexScores`. -/
theorem C1_earlyStopping_first_stop_witness :
    (∀ n, n ≤ 0 + 1 → ∃ s, esRun (esInit 1 "loss") cexScores n = .ok s ∧ s.stopTraining = false) ∧
    esRun (esInit 1 "loss") cexScores (0 + 1 + 1) =
      .ok ⟨1, "loss", 1, some (cexScores 0), 0 + 1, true⟩ :=
  C1_earlyStopping_first_stop 1 0 cexScores (by decide)
    (fun i hi => absurd hi (Nat.not_lt_zero i))
    (by intro i h1 h2; interval_cases i <;> decide)

/-- C2 counterexample.  A `ModelCheckpoint` with `save_best_only = False`
monitoring `"val_acc"`, fed a history whose latest `validate` record is an
empty dict (the monitored metric `"accuracy"` is absent): `on_epoch_end`
logs no warning and still persists the model (directory creation, an
`arch.yaml` write and a `weights.h5` write) — contradicting the claim that
every callback warns and performs no action when the metric is missing. -/
theorem C2_counterexample :
    ModelCheckpoint.onEpochEnd (mcInit "val_acc" false false) 0
        (some ⟨[], [⟨[]⟩]⟩) =
      .ok (⟨"val_acc", false, false, none, true⟩,
        [CbEvent.ensurePath, CbEvent.writeArch, CbEvent.writeWeights]) := by decide

/-- C2 (amended).  For an `EarlyStopping` callback, and for a
`ModelCheckpoint` callback with `save_best_only = True` (the only
checkpoint configuration that consults the monitor), if the latest record
of the selected history stream does not contain the monitored metric then
`on_epoch_end` logs a warning, performs no stop signal and no save, and
leaves the callback state (`best`, `wait`, `stopped_epoch`,
`path_checked`) unchanged. -/
theorem C2_missing_metric_warns_and_skips (s : ESState) (m : MCState)
    (epoch1 epoch2 : ℕ) (h : Option History)
    (r1 : Record) (hs1 : (selectedStream s.monitor h).getLast? = some r1)
    (hm1 : r1.get (normalizeMetric s.monitor) = none)
    (r2 : Record) (hs2 : (selectedStream m.monitor h).getLast? = some r2)
    (hm2 : r2.get (normalizeMetric m.monitor) = none)
    (hbest : m.saveBestOnly = true) :
    EarlyStopping.onEpochEnd s epoch1 h = .ok (s, [CbEvent.warn]) ∧
    ModelCheckpoint.onEpochEnd m epoch2 h = .ok (m, [CbEvent.warn]) := by
  have hg1 : getMonitorValue s.monitor h = .ok none := by
    simp [getMonitorValue, hs1, hm1]
  have hg2 : getMonitorValue m.monitor h = .ok none := by
    simp [getMonitorValue, hs2, hm2]
  constructor
  · simp [EarlyStopping.onEpochEnd, hg1]
  · simp [ModelCheckpoint.onEpochEnd, hbest, hg2]

/-- Witness for C2 (amended): both callbacks monitor `"val_acc"` and the
latest `validate` record is empty. -/
theorem C2_missing_metric_warns_and_skips_witness :
    EarlyStopping.onEpochEnd (esInit 2 "val_acc") 3 (some ⟨[], [⟨[]⟩]⟩) =
      .ok (esInit 2 "val_acc", [CbEvent.warn]) ∧
    ModelCheckpoint.onEpochEnd (mcInit "val_acc" true false) 3 (some ⟨[], [⟨[]⟩]⟩) =
      .ok (mcInit "val_acc" true false, [CbEvent.warn]) :=
  C2_missing_metric_warns_and_skips (esInit 2 "val_acc") (mcInit "val_acc" true false)
    3 3 (some ⟨[], [⟨[]⟩]⟩) ⟨[]⟩ (by decide) (by decide) ⟨[]⟩ (by decide) (by decide) rfl

/-- C3 (confirmed).  When the selected history stream is empty,
`_get_monitor_value` raises `UnboundLocalError` (the local `current` is
never assigned) instead of returning `None` or warning-and-skipping; the
warn-and-skip outcome (`None` returned) is reachable only when the
selected stream is non-empty. -/
theorem C3_empty_stream_unbound_local (monitor : String) (h : Option History) :
    (selectedStream monitor h = [] →
      getMonitorValue monitor h = .error PyError.unboundLocal) ∧
    (getMonitorValue monitor h = .ok none → selectedStream monitor h ≠ []) := by
  constructor
  · intro he
    simp [getMonitorValue, he]
  · intro hok hempty
    simp [getMonitorValue, hempty] at hok

/-- Witness for C3: monitor `"val_acc"` selects the `validate` stream,
which is empty while `train` is not. -/
theorem C3_empty_stream_unbound_local_witness :
    selectedStream "val_acc" (some ⟨[⟨[("accuracy", 5)]⟩], []⟩) = [] ∧
    getMonitorValue "val_acc" (some ⟨[⟨[("accuracy", 5)]⟩], []⟩) =
      .error PyError.unboundLocal :=
  ⟨by decide,
   (C3_empty_stream_unbound_local "val_acc" (some ⟨[⟨[("accuracy", 5)]⟩], []⟩)).1 (by decide)⟩

/-- C4 (confirmed).  For a `ModelCheckpoint` with `save_best_only = True`
whose monitored score is present: a non-improving score produces no events
at all (in particular no weights write and no architecture write, and the
state is unchanged); an improving score produces a save whose events
include the `weights.h5` write.  Independently, every `_save_model` call
writes weights, and writes `arch.yaml` exactly when `save_weights_only`
is false. -/
theorem C4_checkpoint_gating (m : MCState) (epoch : ℕ) (h : Option History) (score : ℚ)
    (hbest : m.saveBestOnly = true)
    (hscore : getMonitorValue m.monitor h = .ok (some score)) :
    (monitorCompare m.monitor score m.best = false →
      ModelCheckpoint.onEpochEnd m epoch h = .ok (m, [])) ∧
    (monitorCompare m.monitor score m.best = true →
      ∃ m' evs, ModelCheckpoint.onEpochEnd m epoch h = .ok (m', evs) ∧
        CbEvent.writeWeights ∈ evs) ∧
    (∀ m'' : MCState, CbEvent.writeWeights ∈ (MCState.saveModel m'').2 ∧
      (CbEvent.writeArch ∈ (MCState.saveModel m'').2 ↔ m''.saveWeightsOnly = false)) := by
  refine ⟨?_, ?_, ?_⟩
  · intro hcmp
    simp [ModelCheckpoint.onEpochEnd, hbest, hscore, hcmp]
  · intro hcmp
    refine ⟨(MCState.saveModel { m with best := some score }).1,
            (MCState.saveModel { m with best := some score }).2, ?_, ?_⟩
    · simp [ModelCheckpoint.onEpochEnd, hbest, hscore, hcmp]
    · simp [MCState.saveModel]
  · intro m''
    constructor
    · simp [MCState.saveModel]
    · rcases hswo : m''.saveWeightsOnly with _ | _ <;>
        simp [MCState.saveModel, hswo]

/-- Witness for C4: checkpoint on `"val_acc"` with an available score 5;
the sentinel `best` makes the score improving, so the non-improving branch
is exercised with `best = some 7` instead. -/
theorem C4_checkpoint_gating_witness :
    ((monitorCompare "val_acc" 5 (some 7) = false →
      ModelCheckpoint.onEpochEnd ⟨"val_acc", true, false, some 7, false⟩ 0
          (some ⟨[], [⟨[("accuracy", 5)]⟩]⟩) =
        .ok (⟨"val_acc", true, false, some 7, false⟩, [])) ∧
     (monitorCompare "val_acc" 5 (some 7) = true →
      ∃ m' evs, ModelCheckpoint.onEpochEnd ⟨"val_acc", true, false, some 7, false⟩ 0
          (some ⟨[], [⟨[("accuracy", 5)]⟩]⟩) = .ok (m', evs) ∧
        CbEvent.writeWeights ∈ evs) ∧
     (∀ m'' : MCState, CbEvent.writeWeights ∈ (MCState.saveModel m'').2 ∧
      (CbEvent.writeArch ∈ (MCState.saveModel m'').2 ↔ m''.saveWeightsOnly = false))) ∧
    monitorCompare "val_acc" 5 (some 7) = false :=
  ⟨C4_checkpoint_gating ⟨"val_acc", true, false, some 7, false⟩ 0
      (some ⟨[], [⟨[("accuracy", 5)]⟩]⟩) 5 rfl (by decide),
   by decide⟩

/-- C10 (confirmed).  An `EarlyStopping` callback with `patience = 0`
sets the stop signal and records `stopped_epoch` on every `on_epoch_end`
call whose monitored metric is available — even when the metric strictly
improves — because `wait >= patience` holds trivially in both branches. -/
theorem C10_zero_patience_always_stops (s : ESState) (epoch : ℕ) (h : Option History)
    (score : ℚ) (hp : s.patience = 0)
    (hscore : getMonitorValue s.monitor h = .ok (some score)) :
    ∃ s', EarlyStopping.onEpochEnd s epoch h = .ok (s', []) ∧
      s'.stopTraining = true ∧ s'.stoppedEpoch = epoch := by
  cases hcm : monitorCompare s.monitor score s.best
  · refine ⟨{ s with wait := s.wait + 1, stopTraining := true, stoppedEpoch := epoch },
      ?_, rfl, rfl⟩
    simp [EarlyStopping.onEpochEnd, hscore, hcm, hp]
  · refine ⟨{ s with best := some score, wait := 0, stopTraining := true, stoppedEpoch := epoch },
      ?_, rfl, rfl⟩
    simp [EarlyStopping.onEpochEnd, hscore, hcm, hp]

/-- Witness for C10: fresh `EarlyStopping` with patience 0 on `"val_acc"`,
fed a history whose latest validate record improves (accuracy 5 against
the `-inf` sentinel): it still stops at the given epoch. -/
theorem C10_zero_patience_always_stops_witness :
    ∃ s', EarlyStopping.onEpochEnd (esInit 0 "val_acc") 7
        (some ⟨[], [⟨[("accuracy", 5)]⟩]⟩) = .ok (s', []) ∧
      s'.stopTraining = true ∧ s'.stoppedEpoch = 7 :=
  C10_zero_patience_always_stops (esInit 0 "val_acc") 7
    (some ⟨[], [⟨[("accuracy", 5)]⟩]⟩) 5 rfl (by decide)

/-! ### Row-major index arithmetic -/

theorem encodeIdx_lt {idx shape : List ℕ} (h : List.Forall₂ (· < ·) idx shape) :
    encodeIdx shape idx < shape.prod := by
  induction h with
  | nil => simp [encodeIdx]
  | @cons a b l₁ l₂ hab _ ih =>
      simp only [encodeIdx, List.prod_cons]
      have hP : 0 < l₂.prod := lt_of_le_of_lt (Nat.zero_le _) ih
      calc a * l₂.prod + encodeIdx l₂ l₁
          < a * l₂.prod + l₂.prod := by omega
        _ = (a + 1) * l₂.prod := by ring
        _ ≤ b * l₂.prod := Nat.mul_le_mul_right _ hab

theorem decodeIdx_encodeIdx {idx shape : List ℕ} (h : List.Forall₂ (· < ·) idx shape) :
    decodeIdx shape (encodeIdx shape idx) = idx := by
  induction h with
  | nil => simp [decodeIdx, encodeIdx]
  | @cons a b l₁ l₂ _ hrest ih =>
      have he : encodeIdx l₂ l₁ < l₂.prod := encodeIdx_lt hrest
      have hP : 0 < l₂.prod := lt_of_le_of_lt (Nat.zero_le _) he
      simp only [decodeIdx, encodeIdx]
      have h1 : (a * l₂.prod + encodeIdx l₂ l₁) / l₂.prod = a := by
        rw [mul_comm, Nat.mul_add_div hP, Nat.div_eq_of_lt he, add_zero]
      have h2 : (a * l₂.prod + encodeIdx l₂ l₁) % l₂.prod = encodeIdx l₂ l₁ := by
        rw [mul_comm, Nat.mul_add_mod, Nat.mod_eq_of_lt he]
      rw [h1, h2, ih]

/-- Pointwise evaluation of `tf.reshape` at an index whose row-major
offset matches a strictly in-bounds index of the original shape. -/
theorem tReshape_data (t : TensorF) (newShape idx tgt : List ℕ)
    (henc : encodeIdx newShape idx = encodeIdx t.shape tgt)
    (hbound : List.Forall₂ (· < ·) tgt t.shape) :
    (tReshape t newShape).data idx = t.data tgt := by
  simp [tReshape, henc, decodeIdx_encodeIdx hbound]

/-- Collapsing two middle axes: flattened coordinate `i*W + j`. -/
theorem encode_flatten (B hd H W d b h i j c : ℕ) :
    encodeIdx [B, hd, H * W, d] [b, h, i * W + j, c] =
      encodeIdx [B, hd, H, W, d] [b, h, i, j, c] := by
  simp only [encodeIdx, List.prod_cons, List.prod_nil]
  ring

/-- Expanding the flattened coordinate `l` back into `(l / W, l % W)`. -/
theorem encode_unflatten (B hd H W d b h l c : ℕ) :
    encodeIdx [B, hd, H * W, d] [b, h, l, c] =
      encodeIdx [B, hd, H, W, d] [b, h, l / W, l % W, c] := by
  have hdm := Nat.div_add_mod l W
  set q := l / W
  set r := l % W
  rw [← hdm, mul_comm W q, encode_flatten]

/-- Pointwise characterisation of `gather_blocks_2d` on a rank-5 tensor:
entry `(b, h, n, k, c)` of the gathered blocks reads the input at the
spatial position whose flattened index is `indices[n][k]`. -/
theorem gather_blocks_2d_data (x : TensorF) (idx : List (List ℕ))
    (B hd H W d b h n k c : ℕ) (hx : x.shape = [B, hd, H, W, d])
    (hb : b < B) (hh : h < hd) (hc : c < d)
    (hv : (idx.getD n []).getD k 0 < H * W) :
    (gather_blocks_2d x idx).data [b, h, n, k, c] =
      x.data [b, h, (idx.getD n []).getD k 0 / W, (idx.getD n []).getD k 0 % W, c] := by
  obtain ⟨s, dataf⟩ := x
  replace hx : s = [B, hd, H, W, d] := hx
  subst hx
  simp only [List.getD, List.get?_eq_getElem?] at hv ⊢
  have hW : 0 < W := by
    rcases Nat.eq_zero_or_pos W with h0 | h
    · subst h0; simp at hv
    · exact h
  have h5 : List.range 5 = [0, 1, 2, 3, 4] := by decide
  have h4 : List.range 4 = [0, 1, 2, 3] := by decide
  simp only [gather_blocks_2d, tTranspose, tGather, reshape_range, tReshape, h4, h5]
  simp only [List.map, List.length_cons, List.length_nil, List.getD, List.get?_eq_getElem?,
    List.indexOf_cons, List.indexOf_nil]
  simp [List.indexOf_cons, List.indexOf_nil]
  rw [encode_unflatten, decodeIdx_encodeIdx]
  exact List.Forall₂.cons hb (List.Forall₂.cons hh (List.Forall₂.cons
    (Nat.div_lt_of_lt_mul (mul_comm H W ▸ hv)) (List.Forall₂.cons (Nat.mod_lt _ hW)
      (List.Forall₂.cons hc List.Forall₂.nil))))

/-- `tf.transpose` with `perm = [2,0,1,3]` on a rank-4 tensor. -/
theorem tTranspose_data_2013 (t : TensorF) (hlen : t.shape.length = 4) (a0 a1 a2 a3 : ℕ) :
    (tTranspose t [2,0,1,3]).data [a0,a1,a2,a3] = t.data [a1,a2,a0,a3] := by
  simp only [tTranspose]
  rw [hlen]
  rfl

/-- `tf.transpose` with `perm = [1,2,0,3]` on a rank-4 tensor. -/
theorem tTranspose_data_1203 (t : TensorF) (hlen : t.shape.length = 4) (a0 a1 a2 a3 : ℕ) :
    (tTranspose t [1,2,0,3]).data [a0,a1,a2,a3] = t.data [a2,a0,a1,a3] := by
  simp only [tTranspose]
  rw [hlen]
  rfl

/-- Pointwise characterisation of `scatter_blocks_2d` on block data of
shape `[B, hd, nb, area, d]` scattered into `[B, hd, H, W, d]`: position
`(b, h, i, j, c)` receives the sum of all block entries whose scatter
index equals the flattened position `i*W + j` (TensorFlow's duplicate
summation). -/
theorem scatter_blocks_2d_data (y : TensorF) (idx : List (List ℕ))
    (B hd nb area H W d b h i j c : ℕ) (hy : y.shape = [B, hd, nb, area, d])
    (hb : b < B) (hh : h < hd) (hi : i < H) (hj : j < W) (hc : c < d)
    (harea : 0 < area) (hN : nb * area = H * W)
    (hlen : idx.flatten.length = nb * area) :
    (scatter_blocks_2d y idx [B, hd, H, W, d]).data [b, h, i, j, c] =
      ∑ m ∈ Finset.range (nb * area),
        if idx.flatten.getD m 0 = i * W + j
        then y.data [b, h, m / area, m % area, c] else 0 := by
  obtain ⟨s, dataf5⟩ := y
  replace hy : s = [B, hd, nb, area, d] := hy
  subst hy
  have hij : i * W + j < H * W := by
    calc i * W + j < i * W + W := Nat.add_lt_add_left hj _
      _ = (i + 1) * W := by ring
      _ ≤ H * W := Nat.mul_le_mul_right W hi
  show (tReshape (tTranspose (tScatterNd idx.flatten
      (tTranspose (tReshape ⟨[B, hd, nb, area, d], dataf5⟩ [B, hd, nb * area, d]) [2, 0, 1, 3])
      (tTranspose (tReshape ⟨[B, hd, nb, area, d], dataf5⟩ [B, hd, nb * area, d]) [2, 0, 1, 3]).shape)
      [1, 2, 0, 3]) [B, hd, H, W, d]).data [b, h, i, j, c] = _
  rw [tReshape_data _ _ _ [b, h, i * W + j, c] ?henc ?hbound]
  case henc =>
    show encodeIdx [B, hd, H, W, d] [b, h, i, j, c] = encodeIdx [B, hd, nb * area, d] [b, h, i * W + j, c]
    rw [hN]
    exact (encode_flatten B hd H W d b h i j c).symm
  case hbound =>
    show List.Forall₂ (· < ·) [b, h, i * W + j, c] [B, hd, nb * area, d]
    exact List.Forall₂.cons hb (List.Forall₂.cons hh (List.Forall₂.cons (hN ▸ hij)
      (List.Forall₂.cons hc List.Forall₂.nil)))
  rw [tTranspose_data_1203 (tScatterNd idx.flatten
      (tTranspose (tReshape ⟨[B, hd, nb, area, d], dataf5⟩ [B, hd, nb * area, d]) [2, 0, 1, 3])
      (tTranspose (tReshape ⟨[B, hd, nb, area, d], dataf5⟩ [B, hd, nb * area, d]) [2, 0, 1, 3]).shape)
      rfl]
  show (∑ m ∈ Finset.range idx.flatten.length,
      if idx.flatten.getD m 0 = i * W + j
      then (tTranspose (tReshape ⟨[B, hd, nb, area, d], dataf5⟩ [B, hd, nb * area, d]) [2, 0, 1, 3]).data
        [m, b, h, c] else 0) = _
  rw [hlen]
  refine Finset.sum_congr rfl (fun m hm => ?_)
  have hmlt : m < nb * area := Finset.mem_range.mp hm
  rw [tTranspose_data_2013
      (tReshape ⟨[B, hd, nb, area, d], dataf5⟩ [B, hd, nb * area, d]) rfl]
  rw [tReshape_data _ _ _ [b, h, m / area, m % area, c]
    (encode_unflatten B hd nb area d b h m c)
    (List.Forall₂.cons hb (List.Forall₂.cons hh (List.Forall₂.cons
      (Nat.div_lt_of_lt_mul (mul_comm nb area ▸ hmlt))
      (List.Forall₂.cons (Nat.mod_lt _ harea) (List.Forall₂.cons hc List.Forall₂.nil)))))]

/-- Flatten length when every row has the same width. -/
theorem flatten_length_eq (idx : List (List ℕ)) (area : ℕ)
    (hrows : ∀ r ∈ idx, r.length = area) :
    idx.flatten.length = idx.length * area := by
  induction idx with
  | nil => simp
  | cons r rs ih =>
      have hr : r.length = area := hrows r (List.mem_cons_self r rs)
      have ih' := ih (fun r' hr' => hrows r' (List.mem_cons_of_mem r hr'))
      simp [List.length_append, hr, ih', Nat.succ_mul, Nat.add_comm]

/-- Element `m` of the flattened index list, in terms of the `m/area`-th
row and `m%area`-th column, when every row has width `area`. -/
theorem flatten_getD_eq (idx : List (List ℕ)) (area : ℕ)
    (hrows : ∀ r ∈ idx, r.length = area) :
    ∀ m, m < idx.length * area →
      idx.flatten.getD m 0 = (idx.getD (m / area) []).getD (m % area) 0 := by
  induction idx with
  | nil => intro m hm; simp at hm
  | cons r rs ih =>
      intro m hm
      have hr : r.length = area := hrows r (List.mem_cons_self r rs)
      have harea : 0 < area := by
        rcases Nat.eq_zero_or_pos area with h0 | h
        · subst h0; simp at hm
        · exact h
      rcases Nat.lt_or_ge m area with hlt | hge
      · have hdiv : m / area = 0 := Nat.div_eq_of_lt hlt
        have hmod : m % area = m := Nat.mod_eq_of_lt hlt
        rw [hdiv, hmod]
        have hmr : m < r.length := by omega
        simp [List.flatten_cons, List.getD, List.getElem?_append_left hmr]
      · have hdiv : m / area = (m - area) / area + 1 := Nat.div_eq_sub_div harea hge
        have hmod : m % area = (m - area) % area := Nat.mod_eq_sub_mod hge
        have hmr : r.length ≤ m := by omega
        have hm' : m - area < rs.length * area := by
          simp only [List.length_cons, Nat.succ_mul] at hm
          omega
        rw [hdiv, hmod]
        have hflat : (r :: rs).flatten.getD m 0 = rs.flatten.getD (m - area) 0 := by
          simp [List.flatten_cons, List.getD, List.get?_eq_getElem?,
            List.getElem?_append_right hmr, hr]
        rw [hflat, List.getD_cons_succ]
        exact ih (fun r' hr' => hrows r' (List.mem_cons_of_mem r hr')) (m - area) hm'

/-- C6 (confirmed).  For a rank-5 spatial feature map `x` and block shape
`(bh, bw)`, let `P = pad_to_multiple_2d x (bh, bw)` with padded spatial
extents `H' × W'`.  If `idx` is a bijection onto the padded grid's
flattened spatial range `{0, ..., H'*W'-1}` (equal-width rows, no
duplicates, full coverage — true of non-overlapping query blocks), then
`scatter_blocks_2d (gather_blocks_2d P idx) idx P.shape` equals `P`
exactly: same shape, and the same value at every in-range position. -/
theorem C6_gather_scatter_roundtrip
    (x : TensorF) (B hd H W d bh bw : ℕ) (hx : x.shape = [B, hd, H, W, d])
    (P : TensorF) (hP : pad_to_multiple_2d x (bh, bw) = .ok P)
    (idx : List (List ℕ)) (nb area : ℕ)
    (hrows : ∀ r ∈ idx, r.length = area) (hnb : idx.length = nb)
    (hN : nb * area = (H + pyNegMod H bh) * (W + pyNegMod W bw))
    (hnodup : idx.flatten.Nodup)
    (hbij : ∀ p, p ∈ idx.flatten ↔ p < (H + pyNegMod H bh) * (W + pyNegMod W bw)) :
    (scatter_blocks_2d (gather_blocks_2d P idx) idx P.shape).shape = P.shape ∧
    (∀ b h i j c, b < B → h < hd → i < H + pyNegMod H bh → j < W + pyNegMod W bw → c < d →
      (scatter_blocks_2d (gather_blocks_2d P idx) idx P.shape).data [b, h, i, j, c] =
        P.data [b, h, i, j, c]) := by
  set H' := H + pyNegMod H bh with hH'
  set W' := W + pyNegMod W bw with hW'
  have hxlen : x.shape.length = 5 := by rw [hx]; rfl
  have hPs : P.shape = [B, hd, H', W', d] := by
    unfold pad_to_multiple_2d at hP
    rw [hxlen] at hP
    simp only [show (5 : ℕ) ≠ 4 by decide, if_false, if_true, reduceIte] at hP
    rcases hP with hP
    injection hP with hP
    rw [← hP]
    simp [tfPad, hx]
  refine ⟨rfl, ?_⟩
  intro b h i j c hb hh hi hj hc
  have hiW : 0 < H' := by omega
  have hjW : 0 < W' := by omega
  have harea : 0 < area := by
    have hpos : 0 < nb * area := hN ▸ Nat.mul_pos hiW hjW
    rcases Nat.eq_zero_or_pos area with h0 | h
    · rw [h0, Nat.mul_zero] at hpos; omega
    · exact h
  have hlen : idx.flatten.length = nb * area := by
    rw [flatten_length_eq idx area hrows, hnb]
  have hGs : (gather_blocks_2d P idx).shape = [B, hd, nb, area, d] := by
    have hne : idx ≠ [] := by
      intro h0
      rw [h0] at hnb
      simp at hnb
      rw [← hnb] at hN
      simp at hN
      rcases hN with hN | hN <;> omega
    obtain ⟨r, rs, rfl⟩ := List.exists_cons_of_ne_nil hne
    have hr : r.length = area := hrows r (List.mem_cons_self r rs)
    simp [gather_blocks_2d, tTranspose, tGather, reshape_range, tReshape, hPs,
      List.getD, hr, ← hnb]
  rw [hPs]
  rw [scatter_blocks_2d_data (gather_blocks_2d P idx) idx B hd nb area H' W' d
    b h i j c hGs hb hh hi hj hc harea hN hlen]
  have htarget : i * W' + j < H' * W' := by
    calc i * W' + j < i * W' + W' := Nat.add_lt_add_left hj _
      _ = (i + 1) * W' := by ring
      _ ≤ H' * W' := Nat.mul_le_mul_right W' hi
  have hmem : i * W' + j ∈ idx.flatten := (hbij _).mpr htarget
  obtain ⟨m0, hm0lt, hm0⟩ := List.mem_iff_getElem.mp hmem
  have hm0N : m0 < nb * area := hlen ▸ hm0lt
  have hsum : (∑ m ∈ Finset.range (nb * area),
      if idx.flatten.getD m 0 = i * W' + j
      then (gather_blocks_2d P idx).data [b, h, m / area, m % area, c] else 0) =
      (if idx.flatten.getD m0 0 = i * W' + j
      then (gather_blocks_2d P idx).data [b, h, m0 / area, m0 % area, c] else 0) := by
    refine Finset.sum_eq_single m0 ?_ ?_
    · intro m hm hne
      have hmN : m < nb * area := Finset.mem_range.mp hm
      have hmlen : m < idx.flatten.length := by omega
      rw [if_neg]
      intro hcond
      rw [List.getD_eq_getElem?_getD, List.getElem?_eq_getElem hmlen] at hcond
      simp only [Option.getD_some] at hcond
      have : idx.flatten[m] = idx.flatten[m0] := by rw [hcond, hm0]
      exact hne ((List.Nodup.getElem_inj_iff hnodup).mp this)
    · intro hnot
      exact absurd (Finset.mem_range.mpr hm0N) hnot
  rw [hsum]
  have hm0val : idx.flatten.getD m0 0 = i * W' + j := by
    rw [List.getD_eq_getElem?_getD, List.getElem?_eq_getElem hm0lt]
    simp [hm0]
  rw [if_pos hm0val]
  have hmrow : m0 < idx.length * area := by rw [hnb]; exact hm0N
  have hvrow : (idx.getD (m0 / area) []).getD (m0 % area) 0 = i * W' + j := by
    rw [← flatten_getD_eq idx area hrows m0 hmrow]
    exact hm0val
  rw [gather_blocks_2d_data P idx B hd H' W' d b h (m0 / area) (m0 % area) c hPs hb hh hc
    (hvrow ▸ htarget)]
  rw [hvrow]
  have hdivW : (i * W' + j) / W' = i := by
    rw [mul_comm, Nat.mul_add_div hjW, Nat.div_eq_of_lt hj, Nat.add_zero]
  have hmodW : (i * W' + j) % W' = j := by
    rw [mul_comm, Nat.mul_add_mod, Nat.mod_eq_of_lt hj]
  rw [hdivW, hmodW]

/-- Witness for C6: the `1×1×2×2×1` map `c6X`, block shape `(2,2)` (its
single non-overlapping block covers the whole grid), indices `[[0,1,2,3]]`. -/
theorem C6_gather_scatter_roundtrip_witness :
    (scatter_blocks_2d (gather_blocks_2d c6P [[0, 1, 2, 3]]) [[0, 1, 2, 3]] c6P.shape).shape =
      c6P.shape ∧
    (∀ b h i j c, b < 1 → h < 1 → i < 2 + pyNegMod 2 2 → j < 2 + pyNegMod 2 2 → c < 1 →
      (scatter_blocks_2d (gather_blocks_2d c6P [[0, 1, 2, 3]]) [[0, 1, 2, 3]] c6P.shape).data
          [b, h, i, j, c] =
        c6P.data [b, h, i, j, c]) :=
  C6_gather_scatter_roundtrip c6X 1 1 2 2 1 2 2 rfl c6P rfl [[0, 1, 2, 3]] 1 4
    (by decide) rfl (by decide) (by decide)
    (by
      intro p
      show p ∈ ([0, 1, 2, 3] : List ℕ) ↔ p < 4
      simp [List.mem_cons]
      omega)

/-! ### Padding arithmetic -/

/-- Python's `-n % m` is below `m`. -/
theorem pyNegMod_lt (n m : ℕ) (hm : 0 < m) : pyNegMod n m < m := by
  unfold pyNegMod
  have h1 : (0 : ℤ) < m := by exact_mod_cast hm
  have h2 := Int.emod_lt_of_pos (-(n : ℤ)) h1
  have h3 := Int.emod_nonneg (-(n : ℤ)) (by omega : (m : ℤ) ≠ 0)
  omega

/-- `n + (-n % m)` is a multiple of `m`. -/
theorem pyNegMod_dvd (n m : ℕ) (hm : 0 < m) : m ∣ n + pyNegMod n m := by
  have hnn : 0 ≤ (-(n : ℤ)) % m := Int.emod_nonneg _ (by omega : (m : ℤ) ≠ 0)
  have hdvd : (m : ℤ) ∣ ((n : ℤ) + (-(n : ℤ)) % m) := by
    rw [Int.emod_def]
    exact ⟨-((-(n : ℤ)) / m), by ring⟩
  have hcast : ((n + pyNegMod n m : ℕ) : ℤ) = (n : ℤ) + (-(n : ℤ)) % m := by
    push_cast [pyNegMod]
    rw [Int.toNat_of_nonneg hnn]
  rw [← hcast] at hdvd
  exact_mod_cast hdvd

/-- `n + (-n % m)` is the least multiple of `m` that is `≥ n`. -/
theorem pyNegMod_min (n m : ℕ) (hm : 0 < m) :
    ∀ M, m ∣ M → n ≤ M → n + pyNegMod n m ≤ M := by
  intro M hdvd hle
  by_contra hlt
  push_neg at hlt
  have hr := pyNegMod_lt n m hm
  have hd2 := pyNegMod_dvd n m hm
  have hsub : m ∣ (n + pyNegMod n m - M) := Nat.dvd_sub' hd2 hdvd
  have hpos : 0 < n + pyNegMod n m - M := by omega
  have hlem : m ≤ n + pyNegMod n m - M := Nat.le_of_dvd hpos hsub
  omega

/-- C8 (confirmed).  For a rank-4 or rank-5 tensor and positive block
shape `(bh, bw)`, `pad_to_multiple_2d` succeeds and returns a tensor
whose height (resp. width) is the smallest multiple of `bh` (resp. `bw`)
that is `≥` the input's height (resp. width), with the original values
unchanged on the original extent and zeros appended at the end of the
height and width axes. -/
theorem C8_pad_to_multiple_2d (x : TensorF) (bh bw : ℕ) (hbh : 0 < bh) (hbw : 0 < bw) :
    (∀ B H W C, x.shape = [B, H, W, C] →
      ∃ P, pad_to_multiple_2d x (bh, bw) = .ok P ∧
        P.shape = [B, H + pyNegMod H bh, W + pyNegMod W bw, C] ∧
        (bh ∣ H + pyNegMod H bh ∧ H ≤ H + pyNegMod H bh ∧
          ∀ M, bh ∣ M → H ≤ M → H + pyNegMod H bh ≤ M) ∧
        (bw ∣ W + pyNegMod W bw ∧ W ≤ W + pyNegMod W bw ∧
          ∀ M, bw ∣ M → W ≤ M → W + pyNegMod W bw ≤ M) ∧
        (∀ b i j c, b < B → i < H → j < W → c < C →
          P.data [b, i, j, c] = x.data [b, i, j, c]) ∧
        (∀ b i j c, b < B → i < H + pyNegMod H bh → j < W + pyNegMod W bw → c < C →
          H ≤ i ∨ W ≤ j → P.data [b, i, j, c] = 0)) ∧
    (∀ B F H W C, x.shape = [B, F, H, W, C] →
      ∃ P, pad_to_multiple_2d x (bh, bw) = .ok P ∧
        P.shape = [B, F, H + pyNegMod H bh, W + pyNegMod W bw, C] ∧
        (bh ∣ H + pyNegMod H bh ∧ H ≤ H + pyNegMod H bh ∧
          ∀ M, bh ∣ M → H ≤ M → H + pyNegMod H bh ≤ M) ∧
        (bw ∣ W + pyNegMod W bw ∧ W ≤ W + pyNegMod W bw ∧
          ∀ M, bw ∣ M → W ≤ M → W + pyNegMod W bw ≤ M) ∧
        (∀ b g i j c, b < B → g < F → i < H → j < W → c < C →
          P.data [b, g, i, j, c] = x.data [b, g, i, j, c]) ∧
        (∀ b g i j c, b < B → g < F → i < H + pyNegMod H bh → j < W + pyNegMod W bw → c < C →
          H ≤ i ∨ W ≤ j → P.data [b, g, i, j, c] = 0)) := by
  obtain ⟨s, f⟩ := x
  constructor
  · intro B H W C hx4
    replace hx4 : s = [B, H, W, C] := hx4
    subst hx4
    refine ⟨_, rfl, ?_, ⟨pyNegMod_dvd H bh hbh, Nat.le_add_right _ _, pyNegMod_min H bh hbh⟩,
      ⟨pyNegMod_dvd W bw hbw, Nat.le_add_right _ _, pyNegMod_min W bw hbw⟩, ?_, ?_⟩
    · simp [tfPad]
    · intro b i j c hb hi hj hc
      simp [tfPad, List.all_cons, hb, hi, hj, hc,
        Nat.lt_of_lt_of_le hi (Nat.le_add_right H (pyNegMod H bh)),
        Nat.lt_of_lt_of_le hj (Nat.le_add_right W (pyNegMod W bw))]
    · intro b i j c hb hi hj hc hout
      simp only [tfPad]
      rw [if_neg]
      simp [List.all_cons]
      intro _ h2 h3
      rcases hout with h | h <;> omega
  · intro B F H W C hx5
    replace hx5 : s = [B, F, H, W, C] := hx5
    subst hx5
    refine ⟨_, rfl, ?_, ⟨pyNegMod_dvd H bh hbh, Nat.le_add_right _ _, pyNegMod_min H bh hbh⟩,
      ⟨pyNegMod_dvd W bw hbw, Nat.le_add_right _ _, pyNegMod_min W bw hbw⟩, ?_, ?_⟩
    · simp [tfPad]
    · intro b g i j c hb hg hi hj hc
      simp [tfPad, List.all_cons, hb, hg, hi, hj, hc,
        Nat.lt_of_lt_of_le hi (Nat.le_add_right H (pyNegMod H bh)),
        Nat.lt_of_lt_of_le hj (Nat.le_add_right W (pyNegMod W bw))]
    · intro b g i j c hb hg hi hj hc hout
      simp only [tfPad]
      rw [if_neg]
      simp [List.all_cons]
      intro _ _ h3 h4
      rcases hout with h | h <;> omega

/-- Witness for C8: the `1×2×3×1` tensor `c8X` padded with block shape
`(4, 4)` (padded spatial extent `4×4`). -/
theorem C8_pad_to_multiple_2d_witness :
    ∃ P, pad_to_multiple_2d c8X (4, 4) = .ok P ∧
      P.shape = [1, 2 + pyNegMod 2 4, 3 + pyNegMod 3 4, 1] ∧
      (4 ∣ 2 + pyNegMod 2 4 ∧ 2 ≤ 2 + pyNegMod 2 4 ∧
        ∀ M, 4 ∣ M → 2 ≤ M → 2 + pyNegMod 2 4 ≤ M) ∧
      (4 ∣ 3 + pyNegMod 3 4 ∧ 3 ≤ 3 + pyNegMod 3 4 ∧
        ∀ M, 4 ∣ M → 3 ≤ M → 3 + pyNegMod 3 4 ≤ M) ∧
      (∀ b i j c, b < 1 → i < 2 → j < 3 → c < 1 →
        P.data [b, i, j, c] = c8X.data [b, i, j, c]) ∧
      (∀ b i j c, b < 1 → i < 2 + pyNegMod 2 4 → j < 3 + pyNegMod 3 4 → c < 1 →
        2 ≤ i ∨ 3 ≤ j → P.data [b, i, j, c] = 0) :=
  (C8_pad_to_multiple_2d c8X 4 4 (by decide) (by decide)).1 1 2 3 1 rfl

/-! ### Block counting -/

/-- Number of index rows produced by `gather_indices_2d`: the product of
the two VALID-convolution output extents. -/
theorem gather_indices_2d_length (x : TensorF) (bh bw sh sw : ℕ) :
    (gather_indices_2d x (bh, bw) (sh, sw)).length =
      convOutDim (x.shape.getD 2 0) bh sh * convOutDim (x.shape.getD 3 0) bw sw := by
  simp only [gather_indices_2d, List.length_flatMap, Function.comp_def,
    List.length_map, List.length_range]
  rw [List.map_const', List.sum_replicate, List.length_range, smul_eq_mul]

/-- `convOutDim` when the stride divides the extent and the kernel is
between 1 and the stride: exactly `n / s` positions. -/
theorem convOutDim_dvd (n k s : ℕ) (h1 : 1 ≤ k) (h2 : k ≤ s) (hd : s ∣ n) :
    convOutDim n k s = n / s := by
  obtain ⟨q, rfl⟩ := hd
  have hs : 0 < s := by omega
  rcases Nat.eq_zero_or_pos q with hq0 | hq
  · subst hq0
    simp [convOutDim, Nat.not_le.mpr (by omega : 0 < k)]
  · obtain ⟨t, rfl⟩ : ∃ t, q = t + 1 := ⟨q - 1, by omega⟩
    have hkn : k ≤ s * (t + 1) := le_trans h2 (Nat.le_mul_of_pos_right s (by omega))
    unfold convOutDim
    rw [if_pos hkn]
    have hsplit : s * (t + 1) - k = s * t + (s - k) := by
      rw [Nat.mul_succ, Nat.add_sub_assoc h2]
    rw [hsplit, Nat.mul_add_div hs, Nat.div_eq_of_lt (by omega : s - k < s), Nat.add_zero,
      Nat.mul_div_cancel_left (t + 1) hs]

/-- C7 counterexample.  Over the `16×16` grid of `c7X` with block shape
`(16, 16)` and stride `(8, 8)` — an overlapping configuration where the
block shape exceeds the stride, with the stride dividing the grid evenly —
`gather_indices_2d` returns a single row, not
`ceil(16/8) × ceil(16/8) = 4`: the VALID convolution stops once the
kernel no longer fits, so overlapping blocks near the far edge are not
produced. -/
theorem C7_counterexample :
    (8 : ℕ) ∣ 16 ∧
    (gather_indices_2d c7X (16, 16) (8, 8)).length = 1 ∧
    (gather_indices_2d c7X (16, 16) (8, 8)).length ≠ 16 / 8 * (16 / 8) := by
  have hlen : (gather_indices_2d c7X (16, 16) (8, 8)).length = 1 := by
    rw [gather_indices_2d_length]
    decide
  exact ⟨by decide, hlen, by rw [hlen]; decide⟩

/-- C7 (amended).  When the stride divides the indexed grid's spatial
extents evenly AND the block shape does not exceed the stride
(`1 ≤ bh ≤ sh`, `1 ≤ bw ≤ sw` — the non-overlapping or exact-tiling
case), the number of rows returned by `gather_indices_2d` is
`(H/sh) × (W/sw)` `( = ceil(H/sh) × ceil(W/sw))`.  In the overlapping
case `block > stride` the row count is `((H-bh)/sh + 1) × ((W-bw)/sw + 1)`,
which is strictly smaller (see the counterexample). -/
theorem C7_num_blocks (x : TensorF) (bh bw sh sw H W : ℕ)
    (hH : x.shape.getD 2 0 = H) (hW : x.shape.getD 3 0 = W)
    (hbh : 1 ≤ bh) (hbw : 1 ≤ bw) (hbs : bh ≤ sh) (hws : bw ≤ sw)
    (hdH : sh ∣ H) (hdW : sw ∣ W) :
    (gather_indices_2d x (bh, bw) (sh, sw)).length = H / sh * (W / sw) := by
  rw [gather_indices_2d_length, hH, hW, convOutDim_dvd H bh sh hbh hbs hdH,
    convOutDim_dvd W bw sw hbw hws hdW]

/-- Witness for C7: `4×4` blocks at stride `8` over the `16×16` grid. -/
theorem C7_num_blocks_witness :
    (gather_indices_2d c7X (4, 4) (8, 8)).length = 16 / 8 * (16 / 8) :=
  C7_num_blocks c7X 4 4 8 8 16 16 rfl rfl (by decide) (by decide) (by decide)
    (by decide) (by decide) (by decide)

/-! ### Index partition (non-overlapping blocks) -/

/-- Closed form of one entry of a `gather_indices_2d` row: the one-hot
kernel picks the grid index at block offset `(ch / bw, ch % bw)`. -/
theorem gather_indices_entry (W bh bw sh sw i j ch : ℕ) (hch : ch < bh * bw) :
    (∑ bi ∈ Finset.range bh, ∑ bj ∈ Finset.range bw,
        ((i * sh + bi) * W + (j * sw + bj)) * eyeKernel bw bi bj ch) =
      (i * sh + ch / bw) * W + (j * sw + ch % bw) := by
  have hbw : 0 < bw := by
    rcases Nat.eq_zero_or_pos bw with h0 | h
    · subst h0; simp at hch
    · exact h
  rw [← Finset.sum_product']
  rw [Finset.sum_eq_single ((ch / bw, ch % bw) : ℕ × ℕ)]
  · have hdm : (ch / bw) * bw + ch % bw = ch := by
      rw [mul_comm]; exact Nat.div_add_mod ch bw
    simp [eyeKernel, hdm]
  · rintro ⟨bi, bj⟩ hp hne
    simp only [Finset.mem_product, Finset.mem_range] at hp
    have hker : bi * bw + bj ≠ ch := by
      intro he
      apply hne
      have h1 : ch / bw = bi := by
        rw [← he, mul_comm, Nat.mul_add_div hbw, Nat.div_eq_of_lt hp.2, Nat.add_zero]
      have h2 : ch % bw = bj := by
        rw [← he, mul_comm, Nat.mul_add_mod, Nat.mod_eq_of_lt hp.2]
      rw [h1, h2]
    simp [eyeKernel, hker]
  · intro habs
    exfalso
    apply habs
    simp only [Finset.mem_product, Finset.mem_range]
    exact ⟨Nat.div_lt_of_lt_mul (by rwa [mul_comm] at hch), Nat.mod_lt _ hbw⟩

/-- `gather_indices_2d` in closed form: row `(i, j)` lists the flattened
grid indices of the block whose top-left corner is `(i*sh, j*sw)`. -/
theorem gather_indices_2d_eq (x : TensorF) (bh bw sh sw H W : ℕ)
    (hH : x.shape.getD 2 0 = H) (hW : x.shape.getD 3 0 = W) :
    gather_indices_2d x (bh, bw) (sh, sw) =
      (List.range (convOutDim H bh sh)).flatMap (fun i =>
        (List.range (convOutDim W bw sw)).map (fun j =>
          (List.range (bh * bw)).map (fun ch =>
            (i * sh + ch / bw) * W + (j * sw + ch % bw)))) := by
  unfold gather_indices_2d
  rw [hH, hW]
  refine List.flatMap_congr ?_
  intro i _
  refine List.map_congr_left ?_
  intro j _
  refine List.map_congr_left ?_
  intro ch hch
  exact gather_indices_entry W bh bw sh sw i j ch (List.mem_range.mp hch)

/-- Arithmetic decomposition of a non-overlapping block index
`(i*bh + ch/bw) * W + (j*bw + ch%bw)`: it lies in the grid and each of
`i`, `j`, `ch` can be recovered by division and remainder. -/
theorem blockIndex_decomp (bh bw H W i j ch : ℕ)
    (hbh : 0 < bh) (hbw : 0 < bw) (hdH : bh ∣ H) (hdW : bw ∣ W)
    (hi : i < H / bh) (hj : j < W / bw) (hch : ch < bh * bw) :
    (i * bh + ch / bw) * W + (j * bw + ch % bw) < H * W ∧
    ((i * bh + ch / bw) * W + (j * bw + ch % bw)) / W = i * bh + ch / bw ∧
    ((i * bh + ch / bw) * W + (j * bw + ch % bw)) % W = j * bw + ch % bw ∧
    (i * bh + ch / bw) / bh = i ∧ (i * bh + ch / bw) % bh = ch / bw ∧
    (j * bw + ch % bw) / bw = j ∧ (j * bw + ch % bw) % bw = ch % bw := by
  have hrowlt : ch / bw < bh := Nat.div_lt_of_lt_mul (by rwa [mul_comm] at hch)
  have hcollt : ch % bw < bw := Nat.mod_lt _ hbw
  have hrow : i * bh + ch / bw < H := by
    have h1 : (i + 1) * bh ≤ H := by
      calc (i + 1) * bh ≤ H / bh * bh := Nat.mul_le_mul_right bh hi
        _ = H := Nat.div_mul_cancel hdH
    calc i * bh + ch / bw < i * bh + bh := by omega
      _ = (i + 1) * bh := by ring
      _ ≤ H := h1
  have hcol : j * bw + ch % bw < W := by
    have h1 : (j + 1) * bw ≤ W := by
      calc (j + 1) * bw ≤ W / bw * bw := Nat.mul_le_mul_right bw hj
        _ = W := Nat.div_mul_cancel hdW
    calc j * bw + ch % bw < j * bw + bw := by omega
      _ = (j + 1) * bw := by ring
      _ ≤ W := h1
  have hW0 : 0 < W := by omega
  refine ⟨?_, ?_, ?_, ?_, ?_, ?_, ?_⟩
  · calc (i * bh + ch / bw) * W + (j * bw + ch % bw)
        < (i * bh + ch / bw) * W + W := by omega
      _ = (i * bh + ch / bw + 1) * W := by ring
      _ ≤ H * W := Nat.mul_le_mul_right W hrow
  · rw [mul_comm _ W, Nat.mul_add_div hW0, Nat.div_eq_of_lt hcol, Nat.add_zero]
  · rw [mul_comm _ W, Nat.mul_add_mod, Nat.mod_eq_of_lt hcol]
  · rw [mul_comm i bh, Nat.mul_add_div hbh, Nat.div_eq_of_lt hrowlt, Nat.add_zero]
  · rw [mul_comm i bh, Nat.mul_add_mod, Nat.mod_eq_of_lt hrowlt]
  · rw [mul_comm j bw, Nat.mul_add_div hbw, Nat.div_eq_of_lt hcollt, Nat.add_zero]
  · rw [mul_comm j bw, Nat.mul_add_mod, Nat.mod_eq_of_lt hcollt]

/-- Injectivity of the block-index map on its domain. -/
theorem blockIndex_inj (bh bw H W i j ch i' j' ch' : ℕ)
    (hbh : 0 < bh) (hbw : 0 < bw) (hdH : bh ∣ H) (hdW : bw ∣ W)
    (hi : i < H / bh) (hj : j < W / bw) (hch : ch < bh * bw)
    (hi' : i' < H / bh) (hj' : j' < W / bw) (hch' : ch' < bh * bw)
    (heq : (i * bh + ch / bw) * W + (j * bw + ch % bw) =
        (i' * bh + ch' / bw) * W + (j' * bw + ch' % bw)) :
    i = i' ∧ j = j' ∧ ch = ch' := by
  obtain ⟨-, hdv, hmd, hdi, hmi, hdj, hmj⟩ :=
    blockIndex_decomp bh bw H W i j ch hbh hbw hdH hdW hi hj hch
  obtain ⟨-, hdv', hmd', hdi', hmi', hdj', hmj'⟩ :=
    blockIndex_decomp bh bw H W i' j' ch' hbh hbw hdH hdW hi' hj' hch'
  have hrow : i * bh + ch / bw = i' * bh + ch' / bw := by
    rw [← hdv, ← hdv', heq]
  have hcol : j * bw + ch % bw = j' * bw + ch' % bw := by
    rw [← hmd, ← hmd', heq]
  have hii : i = i' := by rw [← hdi, ← hdi', hrow]
  have hjj : j = j' := by rw [← hdj, ← hdj', hcol]
  have hcd : ch / bw = ch' / bw := by rw [← hmi, ← hmi', hrow]
  have hcm : ch % bw = ch' % bw := by rw [← hmj, ← hmj', hcol]
  refine ⟨hii, hjj, ?_⟩
  have h1 : bw * (ch / bw) + ch % bw = ch := Nat.div_add_mod ch bw
  have h2 : bw * (ch' / bw) + ch' % bw = ch' := Nat.div_add_mod ch' bw
  rw [← h1, ← h2, hcd, hcm]

/-- Flatten of a `flatMap` of lists of lists. -/
theorem flatten_flatMap_aux (l : List ℕ) (g : ℕ → List (List ℕ)) :
    (l.flatMap g).flatten = l.flatMap (fun i => (g i).flatten) := by
  induction l with
  | nil => simp
  | cons a as ih => simp [ih]

/-- C5 (confirmed).  Over an `H×W` grid (`H`, `W` multiples of the block
shape), `gather_indices_2d` with stride equal to block shape returns
exactly `(H/bh)*(W/bw)` rows; each row holds `bh*bw` pairwise-distinct
indices; the concatenation of all rows has no repeats and its members are
exactly `{0, ..., H*W-1}`. -/
theorem C5_index_partition (x : TensorF) (bh bw H W : ℕ)
    (hH : x.shape.getD 2 0 = H) (hW : x.shape.getD 3 0 = W)
    (hbh : 0 < bh) (hbw : 0 < bw) (hdH : bh ∣ H) (hdW : bw ∣ W) :
    (gather_indices_2d x (bh, bw) (bh, bw)).length = H / bh * (W / bw) ∧
    (∀ r ∈ gather_indices_2d x (bh, bw) (bh, bw), r.length = bh * bw ∧ r.Nodup) ∧
    (gather_indices_2d x (bh, bw) (bh, bw)).flatten.Nodup ∧
    (∀ t, t ∈ (gather_indices_2d x (bh, bw) (bh, bw)).flatten ↔ t < H * W) := by
  have houtH : convOutDim H bh bh = H / bh := convOutDim_dvd H bh bh hbh le_rfl hdH
  have houtW : convOutDim W bw bw = W / bw := convOutDim_dvd W bw bw hbw le_rfl hdW
  rw [gather_indices_2d_eq x bh bw bh bw H W hH hW, houtH, houtW]
  set L := (List.range (H / bh)).flatMap (fun i =>
      (List.range (W / bw)).map (fun j =>
        (List.range (bh * bw)).map (fun ch =>
          (i * bh + ch / bw) * W + (j * bw + ch % bw)))) with hL
  have hLflat : L.flatten = (List.range (H / bh)).flatMap (fun i =>
      (List.range (W / bw)).flatMap (fun j =>
        (List.range (bh * bw)).map (fun ch =>
          (i * bh + ch / bw) * W + (j * bw + ch % bw)))) := by
    rw [hL, flatten_flatMap_aux]
    refine List.flatMap_congr ?_
    intro i _
    exact (List.flatMap_def _ _).symm
  have hinner_nodup : ∀ i, i < H / bh → ∀ j, j < W / bw →
      ((List.range (bh * bw)).map (fun ch =>
        (i * bh + ch / bw) * W + (j * bw + ch % bw))).Nodup := by
    intro i hi j hj
    refine List.Nodup.map_on ?_ (List.nodup_range _)
    intro ch hch ch' hch' heq
    rw [List.mem_range] at hch hch'
    exact (blockIndex_inj bh bw H W i j ch i j ch' hbh hbw hdH hdW
      hi hj hch hi hj hch' heq).2.2
  refine ⟨?_, ?_, ?_, ?_⟩
  · rw [hL]
    simp only [List.length_flatMap, Function.comp_def, List.length_map, List.length_range]
    rw [List.map_const', List.sum_replicate, List.length_range, smul_eq_mul]
  · intro r hr
    rw [hL, List.mem_flatMap] at hr
    obtain ⟨i, hi, hr⟩ := hr
    rw [List.mem_map] at hr
    obtain ⟨j, hj, rfl⟩ := hr
    rw [List.mem_range] at hi hj
    exact ⟨by simp, hinner_nodup i hi j hj⟩
  · rw [hLflat, List.nodup_flatMap]
    constructor
    · intro i hi
      rw [List.mem_range] at hi
      rw [List.nodup_flatMap]
      refine ⟨fun j hj => hinner_nodup i hi j (List.mem_range.mp hj), ?_⟩
      rw [List.pairwise_iff_getElem]
      intro a b ha hb hab
      simp only [List.length_range] at ha hb
      simp only [List.getElem_range]
      intro t hta htb
      rw [List.mem_map] at hta htb
      obtain ⟨ch, hch, rfl⟩ := hta
      obtain ⟨ch', hch', he⟩ := htb
      rw [List.mem_range] at hch hch'
      have := (blockIndex_inj bh bw H W i b ch' i a ch hbh hbw hdH hdW
        hi hb hch' hi ha hch he).2.1
      omega
    · rw [List.pairwise_iff_getElem]
      intro a b ha hb hab
      simp only [List.length_range] at ha hb
      simp only [List.getElem_range]
      intro t hta htb
      rw [List.mem_flatMap] at hta htb
      obtain ⟨j, hj, hta⟩ := hta
      obtain ⟨j', hj', htb⟩ := htb
      rw [List.mem_range] at hj hj'
      rw [List.mem_map] at hta htb
      obtain ⟨ch, hch, rfl⟩ := hta
      obtain ⟨ch', hch', he⟩ := htb
      rw [List.mem_range] at hch hch'
      have := (blockIndex_inj bh bw H W b j' ch' a j ch hbh hbw hdH hdW
        hb hj' hch' ha hj hch he).1
      omega
  · intro t
    rw [hLflat]
    constructor
    · intro ht
      rw [List.mem_flatMap] at ht
      obtain ⟨i, hi, ht⟩ := ht
      rw [List.mem_flatMap] at ht
      obtain ⟨j, hj, ht⟩ := ht
      rw [List.mem_map] at ht
      obtain ⟨ch, hch, rfl⟩ := ht
      rw [List.mem_range] at hi hj hch
      exact (blockIndex_decomp bh bw H W i j ch hbh hbw hdH hdW hi hj hch).1
    · intro ht
      have hW0 : 0 < W := by
        rcases Nat.eq_zero_or_pos W with h0 | h
        · subst h0; simp at ht
        · exact h
      have htW : t / W < H := Nat.div_lt_of_lt_mul (by rwa [mul_comm] at ht)
      have htm : t % W < W := Nat.mod_lt _ hW0
      have ha : t / W % bh < bh := Nat.mod_lt _ hbh
      have hb : t % W % bw < bw := Nat.mod_lt _ hbw
      refine List.mem_flatMap.mpr ⟨t / W / bh,
        List.mem_range.mpr (Nat.div_lt_div_of_lt_of_dvd hdH htW),
        List.mem_flatMap.mpr ⟨t % W / bw,
          List.mem_range.mpr (Nat.div_lt_div_of_lt_of_dvd hdW htm),
          List.mem_map.mpr ⟨t / W % bh * bw + t % W % bw, List.mem_range.mpr ?_, ?_⟩⟩⟩
      · calc t / W % bh * bw + t % W % bw < t / W % bh * bw + bw := by omega
          _ = (t / W % bh + 1) * bw := by ring
          _ ≤ bh * bw := Nat.mul_le_mul_right bw ha
      · have hchd : (t / W % bh * bw + t % W % bw) / bw = t / W % bh := by
          rw [mul_comm, Nat.mul_add_div hbw, Nat.div_eq_of_lt hb, Nat.add_zero]
        have hchm : (t / W % bh * bw + t % W % bw) % bw = t % W % bw := by
          rw [mul_comm, Nat.mul_add_mod, Nat.mod_eq_of_lt hb]
        rw [hchd, hchm]
        have h1 : t / W / bh * bh + t / W % bh = t / W := by
          rw [mul_comm]; exact Nat.div_add_mod (t / W) bh
        have h2 : t % W / bw * bw + t % W % bw = t % W := by
          rw [mul_comm]; exact Nat.div_add_mod (t % W) bw
        rw [h1, h2, mul_comm]
        exact Nat.div_add_mod t W

/-- Witness for C5: `4×4` blocks tiling the `16×16` grid of `c7X`. -/
theorem C5_index_partition_witness :
    (gather_indices_2d c7X (4, 4) (4, 4)).length = 16 / 4 * (16 / 4) ∧
    (∀ r ∈ gather_indices_2d c7X (4, 4) (4, 4), r.length = 4 * 4 ∧ r.Nodup) ∧
    (gather_indices_2d c7X (4, 4) (4, 4)).flatten.Nodup ∧
    (∀ t, t ∈ (gather_indices_2d c7X (4, 4) (4, 4)).flatten ↔ t < 16 * 16) :=
  C5_index_partition c7X 4 4 16 16 rfl rfl (by decide) (by decide) (by decide) (by decide)

/-- C9 (confirmed).  `embedding_to_padding` returns 1.0 exactly at
positions whose channel vector sums to zero in absolute value — over
exact arithmetic that means precisely the all-zero channel vectors, so a
legitimately all-zero feature vector is classified as padding — and 0.0
elsewhere; in `local_attention_2d` this mask, scaled by `-1e9` and
expanded over the query axis, is the attention bias that
`dot_product_attention` adds to the `q·kᵀ` logits of the gathered key
blocks: the biased logit at key position `p` is the raw dot product plus
`-1e9` exactly when key `p`'s channel vector is all zero. -/
theorem C9_embedding_padding_bias (q k : TensorF) (B hd nb Lq Lk d : ℕ)
    (hq : q.shape = [B, hd, nb, Lq, d]) (hk : k.shape = [B, hd, nb, Lk, d])
    (b h n a p : ℕ) :
    ((embedding_to_padding k).data [b, h, n, p] =
      if ∀ c, c < d → k.data [b, h, n, p, c] = 0 then 1 else 0) ∧
    ((embedding_to_padding k).data [b, h, n, p] = 1 ↔
      ∀ c, c < d → k.data [b, h, n, p, c] = 0) ∧
    ((dot_product_attention_logits q k (localAttentionBias k)).data [b, h, n, a, p] =
      (∑ c ∈ Finset.range d, q.data [b, h, n, a, c] * k.data [b, h, n, p, c]) +
        if ∀ c, c < d → k.data [b, h, n, p, c] = 0 then -(10 ^ 9 : ℚ) else 0) := by
  have hlast : k.shape.getLastD 0 = d := by rw [hk]; rfl
  have hiff : (∑ c ∈ Finset.range d, |k.data [b, h, n, p, c]|) = 0 ↔
      ∀ c, c < d → k.data [b, h, n, p, c] = 0 := by
    rw [Finset.sum_eq_zero_iff_of_nonneg (fun c _ => abs_nonneg _)]
    constructor
    · intro hz c hc
      exact abs_eq_zero.mp (hz c (Finset.mem_range.mpr hc))
    · intro hz c hc
      exact abs_eq_zero.mpr (hz c (Finset.mem_range.mp hc))
  have hmask : (embedding_to_padding k).data [b, h, n, p] =
      if ∀ c, c < d → k.data [b, h, n, p, c] = 0 then 1 else 0 := by
    simp only [embedding_to_padding, hlast]
    split_ifs with h1 h2 h2
    · rfl
    · exact absurd (hiff.mp h1) h2
    · exact absurd (hiff.mpr h2) h1
    · rfl
  refine ⟨hmask, ?_, ?_⟩
  · rw [hmask]
    split_ifs with h1
    · exact ⟨fun _ => h1, fun _ => rfl⟩
    · exact ⟨fun h0 => absurd h0 (by norm_num), fun hall => absurd hall h1⟩
  · have hbias : (localAttentionBias k).data [b, h, n, 0, p] =
        if ∀ c, c < d → k.data [b, h, n, p, c] = 0 then -(10 ^ 9 : ℚ) else 0 := by
      simp only [localAttentionBias, tExpandDimsPenult, tScale]
      have herase : ([b, h, n, 0, p] : List ℕ).eraseIdx (([b, h, n, 0, p] : List ℕ).length - 2) =
          [b, h, n, p] := rfl
      rw [herase, hmask]
      split_ifs <;> ring
    simp only [dot_product_attention_logits, tAddBiasPenultBroadcast, tMatMulT]
    have hset : ([b, h, n, a, p] : List ℕ).set (([b, h, n, a, p] : List ℕ).length - 2) 0 =
        [b, h, n, 0, p] := rfl
    rw [hset, hbias]
    congr 1
    have hlastq : q.shape.getLastD 0 = d := by rw [hq]; rfl
    rw [hlastq]
    rfl

/-- Witness for C9: key block `c9K` whose position 0 is all-zero is
classified as padding. -/
theorem C9_embedding_padding_bias_witness :
    (embedding_to_padding c9K).data [0, 0, 0, 0] = 1 ↔
      ∀ c, c < 1 → c9K.data [0, 0, 0, 0, c] = 0 :=
  (C9_embedding_padding_bias c9Q c9K 1 1 1 1 2 1 rfl rfl 0 0 0 0 0).2.1
